import Mathlib

/-
  Verification of the Cashback Matrix Reconciliation Engine
  (Cashback-chooser, src/components/DataTable.tsx).

  Shallow embedding notes:
  * JavaScript numbers are modelled as `Int` (all percentages in play are
    integral; comparisons and `Math.max` coincide with `Int` operations).
  * A JavaScript `Map` is modelled as an association list in insertion
    order: `set` on an existing key replaces the value in place, `set` on
    a fresh key appends at the end, and `values()` iterates in that order.
  * A JavaScript `Set` of strings is modelled as a `List String` used only
    through membership (`has`) and first-occurrence deduplication.
  * `String.prototype.toLowerCase` is modelled per code point for the
    scripts occurring in the program (ASCII and Cyrillic); `trim` strips
    ASCII whitespace from both ends, which agrees with JavaScript on the
    inputs involved.  The default `Array.prototype.sort()` on strings
    compares UTF-16 code-unit sequences; for the BMP strings involved this
    is codepoint-lexicographic order.
-/

/-- Lower-casing of one code point as JavaScript `toLowerCase` performs it
on the ASCII and Cyrillic ranges used by the program. -/
def jsCharToLower (c : Char) : Char :=
  if 'A' ≤ c ∧ c ≤ 'Z' then Char.ofNat (c.toNat + 32)
  else if 0x410 ≤ c.toNat ∧ c.toNat ≤ 0x42F then Char.ofNat (c.toNat + 0x20)
  else if c.toNat = 0x401 then Char.ofNat 0x451
  else c

/-- JavaScript `s.toLowerCase()`. -/
def jsStrToLower (s : String) : String :=
  ⟨s.data.map jsCharToLower⟩

/-- JavaScript `s.trim()`: whitespace stripped from both ends. -/
def jsTrim (s : String) : String :=
  ⟨((s.data.dropWhile Char.isWhitespace).reverse.dropWhile Char.isWhitespace).reverse⟩

/-- Does the character list `hay` start with `needle`? -/
def lexStartsWith : List Char → List Char → Bool
  | _, [] => true
  | [], _ :: _ => false
  | a :: as, b :: bs => a == b && lexStartsWith as bs

/-- Does `needle` occur as a contiguous sublist of `hay`? -/
def lexIncludes : List Char → List Char → Bool
  | [], needle => needle.isEmpty
  | a :: as, needle => lexStartsWith (a :: as) needle || lexIncludes as needle

/-- JavaScript `s.includes(pat)`. -/
def strIncludes (s pat : String) : Bool :=
  lexIncludes s.data pat.data

/-- The raw entry type (src/types.ts, `CashbackEntry`). -/
structure CashbackEntry where
  id : String
  bankName : String
  category : String
  percentage : Int
  originalText : Option String := none
  deriving Repr, DecidableEq

/-- Per-bank configuration (src App component, `BankConfig`). -/
structure BankConfig where
  enabled : Bool
  limit : Nat
  color : String
  deriving Repr, DecidableEq

/-- A matrix cell as produced by `DataTable`:
`{ bank, percentage: number | undefined, isSelected }`. -/
structure Cell where
  bank : String
  percentage : Option Int
  isSelected : Bool
  deriving Repr, DecidableEq

/-- A matrix row: `{ name, values }`. -/
structure MatrixRow where
  name : String
  values : List Cell
  deriving Repr, DecidableEq

/-- Bank-name canonicalization (DataTable.tsx lines 27–32): sequential
substring tests, each inspecting the current value. -/
def normalizeBank (bankName : String) : String :=
  let b1 := if strIncludes bankName "Tinkoff" then "T-Bank" else bankName
  let b2 := if strIncludes b1 "Сбер" then "Sber" else b1
  let b3 := if strIncludes b2 "Альфа" then "Alfa" else b2
  let b4 := if strIncludes b3 "ВТБ" then "VTB" else b3
  if strIncludes b4 "Яндекс" then "Yandex" else b4

/-- The normalized entry stored by the deduplication pass:
`{ ...entry, bankName: normBank, category: entry.category.trim() }`. -/
def normEnt (e : CashbackEntry) : CashbackEntry :=
  { e with bankName := normalizeBank e.bankName, category := jsTrim e.category }

/-- The grouping key `` `${normBank}|${normCat}` `` computed from a raw entry. -/
def mapKey (e : CashbackEntry) : String :=
  normalizeBank e.bankName ++ "|" ++ jsStrToLower (jsTrim e.category)

/-- The selection key of an already-normalized entry:
`` `${bank}|${entry.category.toLowerCase()}` ``. -/
def entryKey (e : CashbackEntry) : String :=
  e.bankName ++ "|" ++ jsStrToLower e.category

/-- JavaScript `Map.get`. -/
def mapGet {α : Type} (m : List (String × α)) (k : String) : Option α :=
  match m with
  | [] => none
  | (k', v) :: t => if k' = k then some v else mapGet t k

/-- JavaScript `Map.set`: replace in place if the key exists, else append. -/
def mapSet {α : Type} (m : List (String × α)) (k : String) (v : α) :
    List (String × α) :=
  match m with
  | [] => [(k, v)]
  | (k', v') :: t => if k' = k then (k, v) :: t else (k', v') :: mapSet t k v

/-- One step of the dedup loop (DataTable.tsx lines 23–40). -/
def dedupeStep (m : List (String × CashbackEntry)) (e : CashbackEntry) :
    List (String × CashbackEntry) :=
  match mapGet m (mapKey e) with
  | none => mapSet m (mapKey e) (normEnt e)
  | some existing =>
      if e.percentage > existing.percentage then mapSet m (mapKey e) (normEnt e)
      else m

/-- The `uniqueEntries` map after the forEach over `data`. -/
def dedupeMap (data : List CashbackEntry) : List (String × CashbackEntry) :=
  data.foldl dedupeStep []

/-- The values list `cleanData = Array.from(uniqueEntries.values())`. -/
def cleanData (data : List CashbackEntry) : List CashbackEntry :=
  (dedupeMap data).map Prod.snd

/-- JavaScript object property lookup `bankConfigs[bank]`. -/
def configGet (configs : List (String × BankConfig)) (b : String) :
    Option BankConfig :=
  match configs with
  | [] => none
  | (k, c) :: t => if k = b then some c else configGet t b

/-- Computes `Object.keys(bankConfigs).filter(b => bankConfigs[b].enabled)`. -/
def activeBanks (configs : List (String × BankConfig)) : List String :=
  (configs.map Prod.fst).filter fun b =>
    match configGet configs b with
    | some c => c.enabled
    | none => false

/-- The effective limit `bankConfigs[bank]?.limit || 5`: a configured limit
of `0` is falsy in JavaScript, so it falls back to `5`, as does a missing
configuration. -/
def effLimit (configs : List (String × BankConfig)) (bank : String) : Nat :=
  match configGet configs bank with
  | some c => if c.limit = 0 then 5 else c.limit
  | none => 5

/-- Stable insertion step for the descending sort
`bankEntries.sort((a, b) => b.percentage - a.percentage)`. -/
def insertByPct (e : CashbackEntry) : List CashbackEntry → List CashbackEntry
  | [] => [e]
  | x :: xs =>
      if x.percentage > e.percentage then x :: insertByPct e xs
      else e :: x :: xs

/-- Stable sort by percentage, descending (equal percentages keep their
original relative order, as JavaScript's stable `sort` does). -/
def sortByPctDesc (l : List CashbackEntry) : List CashbackEntry :=
  l.foldr insertByPct []

/-- The selection keys contributed by one active bank
(DataTable.tsx lines 47–58). -/
def selForBank (configs : List (String × BankConfig))
    (clean : List CashbackEntry) (bank : String) : List String :=
  let bankEntries := sortByPctDesc (clean.filter fun d => d.bankName == bank)
  (bankEntries.take (effLimit configs bank)).map fun e =>
    bank ++ "|" ++ jsStrToLower e.category

/-- The `bankSelections` set, as the list of keys added over all active
banks (membership is all that is ever queried). -/
def bankSelections (configs : List (String × BankConfig))
    (clean : List CashbackEntry) : List String :=
  ((activeBanks configs).map (selForBank configs clean)).flatten

/-- First-occurrence deduplication with an accumulator of already-seen
strings: the semantics of iterating a JavaScript `Set` built from a list. -/
def dedupAux (seen : List String) : List String → List String
  | [] => []
  | x :: xs => if x ∈ seen then dedupAux seen xs else x :: dedupAux (x :: seen) xs

/-- Computes `Array.from(new Set(l))`. -/
def dedupFirst (l : List String) : List String :=
  dedupAux [] l

/-- Codepoint-lexicographic comparison of character lists (the order the
default JavaScript string sort uses, for BMP strings). -/
def lexLt : List Char → List Char → Bool
  | [], [] => false
  | [], _ :: _ => true
  | _ :: _, [] => false
  | a :: as, b :: bs =>
      if a.toNat < b.toNat then true
      else if b.toNat < a.toNat then false
      else lexLt as bs

/-- String comparison for the category sort. -/
def strLtB (a b : String) : Bool :=
  lexLt a.data b.data

/-- Insertion step for the ascending category sort. -/
def insStr (s : String) : List String → List String
  | [] => [s]
  | x :: xs => if strLtB x s then x :: insStr s xs else s :: x :: xs

/-- Computes `allCategories.sort()`: ascending lexicographic sort. -/
def sortStrings (l : List String) : List String :=
  l.foldr insStr []

/-- The percentage lookup map
`` cleanData.forEach(d => matrixMap.set(`${d.bankName}|${d.category}`, d.percentage)) ``. -/
def matrixMap (clean : List CashbackEntry) : List (String × Int) :=
  clean.foldl (fun m d => mapSet m (d.bankName ++ "|" ++ d.category) d.percentage) []

/-- The matrix computed by the `useMemo` block of `DataTable`
(DataTable.tsx lines 16–83). -/
def buildMatrix (configs : List (String × BankConfig))
    (data : List CashbackEntry) : List MatrixRow :=
  let active := activeBanks configs
  let clean := cleanData data
  let sels := bankSelections configs clean
  let relevantData := clean.filter fun d => active.contains d.bankName
  let allCategories := sortStrings (dedupFirst (relevantData.map CashbackEntry.category))
  let mm := matrixMap clean
  allCategories.map fun cat =>
    { name := cat
      values := active.map fun bank =>
        { bank := bank
          percentage := mapGet mm (bank ++ "|" ++ cat)
          isSelected := sels.contains (bank ++ "|" ++ jsStrToLower cat) } }

/-- The value `maxActivePercent`: the maximum percentage among cells that are
selected and carry a value, or `-1` when there are none
(DataTable.tsx lines 106–109 and 195–198). -/
def rowMaxActive (cells : List Cell) : Int :=
  match (cells.filter fun v => v.isSelected && v.percentage.isSome).filterMap
      Cell.percentage with
  | [] => -1
  | x :: xs => xs.foldl max x

/-- The winner cells of a row:
`row.values.filter(v => v.isSelected && v.percentage === maxActivePercent)`. -/
def rowWinners (row : MatrixRow) : List Cell :=
  row.values.filter fun v =>
    v.isSelected && v.percentage == some (rowMaxActive row.values)

/-- The tab-separated export built by `copyToClipboard`
(DataTable.tsx lines 87–97).  A cell renders as `` `${p}%` `` exactly when
`v.percentage` is truthy: an absent percentage and a percentage of `0`
both render as the empty string. -/
def copyText (configs : List (String × BankConfig))
    (data : List CashbackEntry) : String :=
  let m := buildMatrix configs data
  let header := "Категория\t" ++ String.intercalate "\t" (activeBanks configs)
  let rows := String.intercalate "\n" (m.map fun row =>
    row.name ++ "\t" ++ String.intercalate "\t" (row.values.map fun v =>
      match v.percentage with
      | some q => if q = 0 then "" else toString q ++ "%"
      | none => ""))
  header ++ "\n" ++ rows

/-- Rendering of a winner's percentage inside `` `${w.percentage}%` ``
(an absent value would print as "undefined", as JavaScript interpolation
does; winners always carry a value). -/
def pctText : Option Int → String
  | some p => toString p
  | none => "undefined"

/-- Computes `` winners.map(w => `${w.bank} (${w.percentage}%)`).join(' или ') ``. -/
def winnerText (winners : List Cell) : String :=
  String.intercalate " или " (winners.map fun w =>
    w.bank ++ " (" ++ pctText w.percentage ++ "%)")

/-- The per-row lines pushed by the `matrix.forEach` loop of
`downloadCheatSheet` (DataTable.tsx lines 104–118). -/
def cheatBody (matrix : List MatrixRow) : List String :=
  matrix.foldl
    (fun lines row =>
      if (rowWinners row).length > 0 then
        lines ++ ["✅ " ++ row.name ++ ": " ++ winnerText (rowWinners row)]
      else lines)
    []

/-- The full cheat-sheet text, with the locale date string as a parameter
(the surrounding lines of `downloadCheatSheet`). -/
def cheatSheet (dateStr : String) (matrix : List MatrixRow) : String :=
  String.intercalate "\n"
    (["📋 ПАМЯТКА ПО КЭШБЭКУ", "=====================", "📅 " ++ dateStr ++ "\n"]
      ++ cheatBody matrix
      ++ ["\n=====================", "Сгенерировано AI Cashacker"])

/-- The number of deduplicated entries of `bank` that carry the selection
flag (their selection key is in `bankSelections`). -/
def selectedCount (configs : List (String × BankConfig))
    (data : List CashbackEntry) (bank : String) : Nat :=
  ((cleanData data).filter fun e =>
    e.bankName == bank
      && (bankSelections configs (cleanData data)).contains (entryKey e)).length

/-- Asserts that `'|'` does not occur in the string (bank names are interpolated into
`|`-separated keys; this rules out cross-bank key collisions). -/
def pipeFree (s : String) : Bool :=
  s.data.all fun c => c ≠ '|'

/-- The conflict-resolution step on raw entries: keep the incumbent unless
the challenger's percentage is strictly greater. -/
def pickRaw (b x : CashbackEntry) : CashbackEntry :=
  if x.percentage > b.percentage then x else b

/-- The conflict-resolution step as it acts on the stored (normalized)
survivor: a strictly greater challenger replaces it by its normalization. -/
def pick (b x : CashbackEntry) : CashbackEntry :=
  if x.percentage > b.percentage then normEnt x else b

/-- The evolution of one key's slot of the dedup map over the input
entries that hit that key. -/
def runKey (o : Option CashbackEntry) : List CashbackEntry → Option CashbackEntry
  | [] => o
  | e :: t =>
      match o with
      | none => runKey (some (normEnt e)) t
      | some v => runKey (some (pick v e)) t

/-- Modelled from the spec, amended: how one tabular-export cell renders —
`<percentage>%` when an offer is present with a nonzero percentage, and
the empty string when the cell is absent or the percentage is `0`. -/
def specCellText (p : Option Int) : String :=
  match p with
  | some q => if q = 0 then "" else toString q ++ "%"
  | none => ""

/-- Modelled from the spec, amended: the whole tabular export — a
tab-separated header (category label then the enabled banks) and one line
per matrix row, each cell rendered by `specCellText`. -/
def specTabular (configs : List (String × BankConfig))
    (data : List CashbackEntry) : String :=
  "Категория\t" ++ String.intercalate "\t" (activeBanks configs) ++ "\n"
    ++ String.intercalate "\n" ((buildMatrix configs data).map fun row =>
        row.name ++ "\t"
          ++ String.intercalate "\t" (row.values.map fun v => specCellText v.percentage))

/-- Configuration for the limit-0 scenario: Sber enabled with limit 0. -/
def cfgC1 : List (String × BankConfig) :=
  [("Sber", ⟨true, 0, "green"⟩)]

/-- One Sber offer, for the limit-0 scenario. -/
def dataC1 : List CashbackEntry :=
  [⟨"1", "Sber", "Такси", 5, none⟩]

/-- Input with two raw entries hitting the same (bank, category) key. -/
def dataC2w : List CashbackEntry :=
  [⟨"1", "Sber", "Такси", 5, none⟩, ⟨"2", "Sber", "такси ", 7, none⟩]

/-- Configuration for the limit-0 counting counterexample. -/
def cfgC3 : List (String × BankConfig) :=
  [("Sber", ⟨true, 0, "green"⟩)]

/-- One Sber offer, for the limit-0 counting counterexample. -/
def dataC3 : List CashbackEntry :=
  [⟨"1", "Sber", "Такси", 5, none⟩]

/-- Configuration for the counting witness: Sber enabled with limit 2. -/
def cfgC3w : List (String × BankConfig) :=
  [("Sber", ⟨true, 2, "green"⟩)]

/-- Three Sber offers with distinct categories, for the counting witness. -/
def dataC3w : List CashbackEntry :=
  [⟨"1", "Sber", "A", 10, none⟩, ⟨"2", "Sber", "B", 9, none⟩,
   ⟨"3", "Sber", "C", 20, none⟩]

/-- Configuration for the winner-invariant witness. -/
def cfgC5 : List (String × BankConfig) :=
  [("Sber", ⟨true, 1, "green"⟩)]

/-- One offer, for the winner-invariant witness. -/
def dataC5 : List CashbackEntry :=
  [⟨"1", "Sber", "Кафе", 5, none⟩]

/-- The single row the winner-invariant witness instantiates at. -/
def rowC5 : MatrixRow :=
  ⟨"Кафе", [⟨"Sber", some 5, true⟩]⟩

/-- Both banks enabled with limit 5, for the worked example. -/
def cfgC6 : List (String × BankConfig) :=
  [("Sber", ⟨true, 5, "green"⟩), ("T-Bank", ⟨true, 5, "yellow"⟩)]

/-- The spec's worked example: three taxi offers in mixed case. -/
def dataC6 : List CashbackEntry :=
  [⟨"1", "Sber", "Такси", 5, none⟩,
   ⟨"2", "Sber", "такси ", 7, none⟩,
   ⟨"3", "T-Bank", "Такси", 6, none⟩]

/-- Configuration for the zero-percentage export counterexample. -/
def cfgC7 : List (String × BankConfig) :=
  [("Sber", ⟨true, 5, "green"⟩)]

/-- One offer with percentage 0, for the export counterexample. -/
def dataC7 : List CashbackEntry :=
  [⟨"1", "Sber", "Кафе", 0, none⟩]

/-- Two banks enabled, for the cheat-sheet tie example. -/
def cfgC8 : List (String × BankConfig) :=
  [("Sber", ⟨true, 5, "green"⟩), ("Alfa", ⟨true, 5, "red"⟩)]

/-- Two banks tied at 5% on the same category. -/
def dataC8 : List CashbackEntry :=
  [⟨"1", "Sber", "Кафе", 5, none⟩, ⟨"2", "Alfa", "Кафе", 5, none⟩]

/-- Sber enabled, VTB disabled, for the disabled-bank witness. -/
def cfgC9 : List (String × BankConfig) :=
  [("Sber", ⟨true, 5, "green"⟩), ("VTB", ⟨false, 4, "blue"⟩)]

/-- One enabled-bank offer and one offer of the disabled bank. -/
def dataC9 : List CashbackEntry :=
  [⟨"1", "Sber", "Кафе", 5, none⟩, ⟨"2", "ВТБ", "Аптеки", 3, none⟩]

/-- Two enabled banks offering the same category text in different letter
casing. -/
def cfgC10 : List (String × BankConfig) :=
  [("Sber", ⟨true, 5, "green"⟩), ("T-Bank", ⟨true, 4, "yellow"⟩)]

/-- Offers whose category differs only in casing across the two banks. -/
def dataC10 : List CashbackEntry :=
  [⟨"1", "Sber", "такси", 7, none⟩, ⟨"2", "T-Bank", "Такси", 6, none⟩]

/-! ### Association-list map lemmas -/

theorem entryKey_normEnt (e : CashbackEntry) : entryKey (normEnt e) = mapKey e := rfl

theorem mapGet_mapSet_self {α : Type} (m : List (String × α)) (k : String) (v : α) :
    mapGet (mapSet m k v) k = some v := by
  induction m with
  | nil => simp [mapSet, mapGet]
  | cons p t ih =>
      obtain ⟨k', v'⟩ := p
      by_cases hk : k' = k
      · simp [mapSet, hk, mapGet]
      · simp [mapSet, hk, mapGet, ih]

theorem mapGet_mapSet_ne {α : Type} (m : List (String × α)) (k k' : String) (v : α)
    (h : k' ≠ k) : mapGet (mapSet m k v) k' = mapGet m k' := by
  induction m with
  | nil => simp [mapSet, mapGet, Ne.symm h]
  | cons p t ih =>
      obtain ⟨k₀, v₀⟩ := p
      by_cases hk : k₀ = k
      · subst hk
        simp [mapSet, mapGet, Ne.symm h]
      · simp [mapSet, hk, mapGet, ih]

theorem mapGet_eq_none_iff {α : Type} (m : List (String × α)) (k : String) :
    mapGet m k = none ↔ k ∉ m.map Prod.fst := by
  induction m with
  | nil => simp [mapGet]
  | cons p t ih =>
      obtain ⟨k₀, v₀⟩ := p
      by_cases hk : k₀ = k
      · simp [mapGet, hk]
      · simp [mapGet, hk, ih, Ne.symm hk]

theorem mapSet_keys_of_mem {α : Type} (m : List (String × α)) (k : String) (v : α)
    (h : k ∈ m.map Prod.fst) : (mapSet m k v).map Prod.fst = m.map Prod.fst := by
  induction m with
  | nil => simp at h
  | cons p t ih =>
      obtain ⟨k₀, v₀⟩ := p
      by_cases hk : k₀ = k
      · simp [mapSet, hk]
      · have ht : k ∈ t.map Prod.fst := by
          simp at h
          rcases h with h | h
          · exact absurd h.symm hk
          · simpa using h
        simp [mapSet, hk, ih ht]

theorem mapSet_keys_of_not_mem {α : Type} (m : List (String × α)) (k : String) (v : α)
    (h : k ∉ m.map Prod.fst) :
    (mapSet m k v).map Prod.fst = m.map Prod.fst ++ [k] := by
  induction m with
  | nil => simp [mapSet]
  | cons p t ih =>
      obtain ⟨k₀, v₀⟩ := p
      have hk : k₀ ≠ k := by
        intro hh
        exact h (by simp [hh])
      have ht : k ∉ t.map Prod.fst := by
        intro hh
        exact h (by simp [hh])
      simp [mapSet, hk, ih ht]

theorem mem_mapSet {α : Type} (m : List (String × α)) (k : String) (v : α)
    (p : String × α) (h : p ∈ mapSet m k v) : p = (k, v) ∨ p ∈ m := by
  induction m with
  | nil =>
      simp [mapSet] at h
      exact Or.inl h
  | cons q t ih =>
      obtain ⟨k₀, v₀⟩ := q
      by_cases hk : k₀ = k
      · simp [mapSet, hk] at h
        rcases h with h | h
        · exact Or.inl (by simp [h])
        · exact Or.inr (by simp [h])
      · simp [mapSet, hk] at h
        rcases h with h | h
        · exact Or.inr (by simp [h])
        · rcases ih h with h | h
          · exact Or.inl h
          · exact Or.inr (by simp [h])

/-! ### Dedup-map invariants -/

theorem mapSet_keys_nodup {α : Type} (m : List (String × α)) (k : String) (v : α)
    (h : (m.map Prod.fst).Nodup) : ((mapSet m k v).map Prod.fst).Nodup := by
  by_cases hm : k ∈ m.map Prod.fst
  · rw [mapSet_keys_of_mem m k v hm]
    exact h
  · rw [mapSet_keys_of_not_mem m k v hm]
    refine List.nodup_append.mpr ⟨h, List.nodup_singleton k, ?_⟩
    intro a ha hb
    simp at hb
    subst hb
    exact hm ha

theorem dedupe_foldl_inv (l : List CashbackEntry)
    (m : List (String × CashbackEntry))
    (h1 : (m.map Prod.fst).Nodup)
    (h2 : ∀ p ∈ m, p.1 = entryKey p.2) :
    ((l.foldl dedupeStep m).map Prod.fst).Nodup
      ∧ ∀ p ∈ l.foldl dedupeStep m, p.1 = entryKey p.2 := by
  induction l generalizing m with
  | nil => exact ⟨h1, h2⟩
  | cons e t ih =>
      have step1 : ((dedupeStep m e).map Prod.fst).Nodup := by
        unfold dedupeStep
        cases hget : mapGet m (mapKey e) with
        | none => exact mapSet_keys_nodup m _ _ h1
        | some ex =>
            by_cases hp : e.percentage > ex.percentage
            · simp [hp]
              exact mapSet_keys_nodup m _ _ h1
            · simp [hp]
              exact h1
      have step2 : ∀ p ∈ dedupeStep m e, p.1 = entryKey p.2 := by
        intro p hp
        unfold dedupeStep at hp
        cases hget : mapGet m (mapKey e) with
        | none =>
            rw [hget] at hp
            rcases mem_mapSet m _ _ p hp with h | h
            · rw [h]
              exact (entryKey_normEnt e).symm
            · exact h2 p h
        | some ex =>
            rw [hget] at hp
            by_cases hgt : e.percentage > ex.percentage
            · simp only [if_pos hgt] at hp
              rcases mem_mapSet m _ _ p hp with h | h
              · rw [h]
                exact (entryKey_normEnt e).symm
              · exact h2 p h
            · simp only [if_neg hgt] at hp
              exact h2 p hp
      exact ih (dedupeStep m e) step1 step2

theorem dedupeMap_keys_nodup (data : List CashbackEntry) :
    ((dedupeMap data).map Prod.fst).Nodup :=
  (dedupe_foldl_inv data [] (by simp) (by simp)).1

theorem dedupeMap_key_eq (data : List CashbackEntry) :
    ∀ p ∈ dedupeMap data, p.1 = entryKey p.2 :=
  (dedupe_foldl_inv data [] (by simp) (by simp)).2

theorem cleanData_keys_nodup (data : List CashbackEntry) :
    ((cleanData data).map entryKey).Nodup := by
  have hmap : (cleanData data).map entryKey = (dedupeMap data).map Prod.fst := by
    unfold cleanData
    rw [List.map_map]
    apply List.map_congr_left
    intro p hp
    exact (dedupeMap_key_eq data p hp).symm
  rw [hmap]
  exact dedupeMap_keys_nodup data

theorem filter_map_snd_eq_get {α : Type} [DecidableEq α]
    (f : α → String) (m : List (String × α)) (k : String)
    (h1 : (m.map Prod.fst).Nodup) (h2 : ∀ p ∈ m, p.1 = f p.2) :
    (m.map Prod.snd).filter (fun e => f e == k) = (mapGet m k).toList := by
  induction m with
  | nil => simp [mapGet]
  | cons p t ih =>
      obtain ⟨k₀, v₀⟩ := p
      have hk₀ : k₀ = f v₀ := h2 (k₀, v₀) (by simp)
      have h1t : (t.map Prod.fst).Nodup := (List.nodup_cons.mp h1).2
      have h2t : ∀ p ∈ t, p.1 = f p.2 := fun p hp => h2 p (by simp [hp])
      by_cases hkk : k₀ = k
      · subst hkk
        have hrest : (t.map Prod.snd).filter (fun e => f e == k₀) = [] := by
          rw [List.filter_eq_nil_iff]
          intro e he
          simp only [List.mem_map] at he
          obtain ⟨q, hq, hqe⟩ := he
          have : q.1 = f q.2 := h2t q hq
          intro hfe
          have hfk : f e = k₀ := by simpa using hfe
          have : k₀ ∈ t.map Prod.fst := by
            rw [List.mem_map]
            exact ⟨q, hq, by rw [this, hqe, hfk]⟩
          exact (List.nodup_cons.mp h1).1 this
        simp [mapGet, hk₀.symm, hrest]
      · have hne : ¬(f v₀ == k) = true := by
          simp
          rw [← hk₀]
          exact hkk
        simp [mapGet, hkk, hne, ih h1t h2t]

/-! ### Evolution of one dedup-map slot -/

theorem mapGet_foldl_dedupe (l : List CashbackEntry)
    (m : List (String × CashbackEntry)) (k : String) :
    mapGet (l.foldl dedupeStep m) k
      = runKey (mapGet m k) (l.filter fun e => mapKey e == k) := by
  induction l generalizing m with
  | nil => simp [runKey]
  | cons e t ih =>
      by_cases hk : mapKey e = k
      · subst hk
        rw [List.foldl_cons, ih]
        have hf : (e :: t).filter (fun x => mapKey x == mapKey e)
            = e :: t.filter (fun x => mapKey x == mapKey e) := by simp
        rw [hf]
        cases hget : mapGet m (mapKey e) with
        | none =>
            have hstep : mapGet (dedupeStep m e) (mapKey e) = some (normEnt e) := by
              unfold dedupeStep
              rw [hget]
              exact mapGet_mapSet_self m (mapKey e) (normEnt e)
            rw [hstep]
            simp [runKey]
        | some v =>
            have hstep : mapGet (dedupeStep m e) (mapKey e) = some (pick v e) := by
              simp only [dedupeStep, hget]
              by_cases hgt : e.percentage > v.percentage
              · rw [if_pos hgt, mapGet_mapSet_self]
                simp [pick, hgt]
              · rw [if_neg hgt, hget]
                simp [pick, hgt]
            rw [hstep]
            simp [runKey]
      · rw [List.foldl_cons, ih]
        have hstep : mapGet (dedupeStep m e) k = mapGet m k := by
          unfold dedupeStep
          cases hg : mapGet m (mapKey e) with
          | none => exact mapGet_mapSet_ne m (mapKey e) k (normEnt e) (Ne.symm hk)
          | some v =>
              simp only [hg]
              by_cases hgt : e.percentage > v.percentage
              · rw [if_pos hgt]
                exact mapGet_mapSet_ne m (mapKey e) k (normEnt e) (Ne.symm hk)
              · rw [if_neg hgt]
        rw [hstep]
        have hf : (e :: t).filter (fun x => mapKey x == k)
            = t.filter (fun x => mapKey x == k) := by simp [hk]
        rw [hf]

theorem runKey_some_eq_foldl (l : List CashbackEntry) (v : CashbackEntry) :
    runKey (some v) l = some (l.foldl pick v) := by
  induction l generalizing v with
  | nil => simp [runKey]
  | cons e t ih => simp [runKey, ih, List.foldl_cons]

theorem foldl_pick_normEnt (t : List CashbackEntry) (c : CashbackEntry) :
    t.foldl pick (normEnt c) = normEnt (t.foldl pickRaw c) := by
  induction t generalizing c with
  | nil => simp
  | cons x xs ih =>
      rw [List.foldl_cons, List.foldl_cons]
      have hp : pick (normEnt c) x = normEnt (pickRaw c x) := by
        unfold pick pickRaw
        have hpct : (normEnt c).percentage = c.percentage := rfl
        rw [hpct]
        by_cases h : x.percentage > c.percentage
        · simp [h]
        · simp [h]
      rw [hp, ih]

theorem foldl_pickRaw_ge (t : List CashbackEntry) (b : CashbackEntry) :
    b.percentage ≤ (t.foldl pickRaw b).percentage := by
  induction t generalizing b with
  | nil => simp
  | cons x xs ih =>
      rw [List.foldl_cons]
      unfold pickRaw
      by_cases h : x.percentage > b.percentage
      · rw [if_pos h]
        exact le_trans (le_of_lt h) (ih x)
      · rw [if_neg h]
        exact ih b

theorem foldl_pickRaw_split (t : List CashbackEntry) (c : CashbackEntry) :
    ∃ l₁ l₂, c :: t = l₁ ++ (t.foldl pickRaw c) :: l₂
      ∧ (∀ x ∈ l₁, x.percentage < (t.foldl pickRaw c).percentage)
      ∧ (∀ x ∈ l₂, x.percentage ≤ (t.foldl pickRaw c).percentage) := by
  induction t generalizing c with
  | nil => exact ⟨[], [], by simp, by simp, by simp⟩
  | cons x xs ih =>
      rw [List.foldl_cons]
      by_cases h : x.percentage > c.percentage
      · have hx : pickRaw c x = x := by simp [pickRaw, h]
        rw [hx]
        obtain ⟨l₁, l₂, hsplit, hlt, hle⟩ := ih x
        refine ⟨c :: l₁, l₂, ?_, ?_, hle⟩
        · rw [List.cons_append, ← hsplit]
        · intro y hy
          rcases List.mem_cons.mp hy with hy | hy
          · subst hy
            exact lt_of_lt_of_le h (foldl_pickRaw_ge xs x)
          · exact hlt y hy
      · have hx : pickRaw c x = c := by simp [pickRaw, h]
        rw [hx]
        obtain ⟨l₁, l₂, hsplit, hlt, hle⟩ := ih c
        cases l₁ with
        | nil =>
            simp only [List.nil_append] at hsplit
            have hc : c = xs.foldl pickRaw c := (List.cons.injEq _ _ _ _).mp hsplit |>.1
            have hxs : xs = l₂ := (List.cons.injEq _ _ _ _).mp hsplit |>.2
            refine ⟨[], x :: l₂, ?_, by simp, ?_⟩
            · simp [← hc, ← hxs]
            · intro y hy
              rcases List.mem_cons.mp hy with hy | hy
              · subst hy
                rw [← hc]
                exact le_of_not_lt h
              · exact hle y hy
        | cons a l₁' =>
            simp only [List.cons_append] at hsplit
            have ha : a = c := ((List.cons.injEq _ _ _ _).mp hsplit).1.symm
            have hxs : xs = l₁' ++ xs.foldl pickRaw c :: l₂ :=
              ((List.cons.injEq _ _ _ _).mp hsplit).2
            refine ⟨c :: x :: l₁', l₂, ?_, ?_, hle⟩
            · simp [List.cons_append, ← hxs]
            · intro y hy
              have hcr : c.percentage < (xs.foldl pickRaw c).percentage := by
                apply hlt
                rw [ha]
                exact List.mem_cons_self c l₁'
              rcases List.mem_cons.mp hy with hy | hy
              · subst hy
                exact hcr
              · rcases List.mem_cons.mp hy with hy | hy
                · subst hy
                  exact lt_of_le_of_lt (le_of_not_lt h) hcr
                · exact hlt y (List.mem_cons_of_mem a hy)

/-- C2: for every (canonical bank, trimmed-lower-cased category) key
occurring among the normalized inputs, the deduplication pass outputs
exactly one entry with that key; the survivor is the normalization of the
first input entry attaining the maximal percentage for the key (everything
before it is strictly smaller, everything after it no larger), so its
percentage is that maximum, ties go to the earliest entry, and its
displayed category is the trimmed original-case text of the entry that
contributed the kept percentage. -/
theorem dedup_unique_max_first (data : List CashbackEntry) (k : String)
    (h : ∃ e ∈ data, mapKey e = k) :
    ∃ c l₁ l₂,
      (cleanData data).filter (fun e => entryKey e == k) = [normEnt c]
        ∧ data.filter (fun e => mapKey e == k) = l₁ ++ c :: l₂
        ∧ (∀ x ∈ l₁, x.percentage < c.percentage)
        ∧ (∀ x ∈ l₂, x.percentage ≤ c.percentage)
        ∧ (normEnt c).percentage = c.percentage
        ∧ (normEnt c).category = jsTrim c.category := by
  obtain ⟨e₀, he₀, hk₀⟩ := h
  have hmem : e₀ ∈ data.filter (fun e => mapKey e == k) := by
    simp [List.mem_filter, he₀, hk₀]
  cases hF : data.filter (fun e => mapKey e == k) with
  | nil =>
      rw [hF] at hmem
      simp at hmem
  | cons c₀ t =>
      have hget : mapGet (dedupeMap data) k = some (normEnt (t.foldl pickRaw c₀)) := by
        unfold dedupeMap
        rw [mapGet_foldl_dedupe data [] k, hF]
        simp only [mapGet, runKey]
        rw [runKey_some_eq_foldl, foldl_pick_normEnt]
      obtain ⟨l₁, l₂, hsplit, hlt, hle⟩ := foldl_pickRaw_split t c₀
      refine ⟨t.foldl pickRaw c₀, l₁, l₂, ?_, ?_, hlt, hle, rfl, rfl⟩
      · unfold cleanData
        rw [filter_map_snd_eq_get entryKey (dedupeMap data) k
          (dedupeMap_keys_nodup data) (dedupeMap_key_eq data), hget]
        rfl
      · exact hsplit

/-- Witness: the key "Sber|такси" occurs among the two raw entries and the
unique-survivor property holds there. -/
theorem dedup_unique_max_first_witness :
    (∃ e ∈ dataC2w, mapKey e = "Sber|такси")
      ∧ ∃ c l₁ l₂,
          (cleanData dataC2w).filter (fun e => entryKey e == "Sber|такси") = [normEnt c]
            ∧ dataC2w.filter (fun e => mapKey e == "Sber|такси") = l₁ ++ c :: l₂
            ∧ (∀ x ∈ l₁, x.percentage < c.percentage)
            ∧ (∀ x ∈ l₂, x.percentage ≤ c.percentage)
            ∧ (normEnt c).percentage = c.percentage
            ∧ (normEnt c).category = jsTrim c.category :=
  ⟨by decide, dedup_unique_max_first dataC2w "Sber|такси" (by decide)⟩

/-! ### Selection machinery -/

theorem insertByPct_perm (e : CashbackEntry) (l : List CashbackEntry) :
    (insertByPct e l).Perm (e :: l) := by
  induction l with
  | nil => exact List.Perm.refl [e]
  | cons x xs ih =>
      unfold insertByPct
      by_cases h : x.percentage > e.percentage
      · rw [if_pos h]
        exact (ih.cons x).trans (List.Perm.swap e x xs)
      · rw [if_neg h]

theorem sortByPctDesc_perm (l : List CashbackEntry) :
    (sortByPctDesc l).Perm l := by
  induction l with
  | nil => exact List.Perm.refl []
  | cons x xs ih =>
      unfold sortByPctDesc
      rw [List.foldr_cons]
      exact (insertByPct_perm x (sortByPctDesc xs)).trans (ih.cons x)

theorem contains_eq_decide_mem (xs : List String) (x : String) :
    xs.contains x = decide (x ∈ xs) := by
  by_cases h : x ∈ xs
  · simp [h, List.elem_eq_true_of_mem h]
  · simp [h]

theorem pipe_split_lists (la : List Char) (lb ls lt : List Char)
    (ha : ∀ c ∈ la, c ≠ '|') (hb : ∀ c ∈ lb, c ≠ '|')
    (h : la ++ '|' :: ls = lb ++ '|' :: lt) : la = lb ∧ ls = lt := by
  induction la generalizing lb with
  | nil =>
      cases lb with
      | nil => simpa using h
      | cons b bs =>
          simp only [List.nil_append, List.cons_append, List.cons.injEq] at h
          exact absurd h.1.symm (hb b (by simp))
  | cons a as ih =>
      cases lb with
      | nil =>
          simp only [List.nil_append, List.cons_append, List.cons.injEq] at h
          exact absurd h.1 (ha a (by simp))
      | cons b bs =>
          simp only [List.cons_append, List.cons.injEq] at h
          obtain ⟨hab, h2⟩ := h
          have has : ∀ c ∈ as, c ≠ '|' := fun c hc => ha c (by simp [hc])
          have hbs : ∀ c ∈ bs, c ≠ '|' := fun c hc => hb c (by simp [hc])
          obtain ⟨h3, h4⟩ := ih bs has hbs h2
          exact ⟨by rw [hab, h3], h4⟩

theorem pipeFree_chars (a : String) (ha : pipeFree a = true) :
    ∀ c ∈ a.data, c ≠ '|' := by
  intro c hc
  have := List.all_eq_true.mp ha c hc
  simpa using this

theorem pipe_key_cancel (a b s t : String)
    (ha : pipeFree a = true) (hb : pipeFree b = true)
    (h : a ++ "|" ++ s = b ++ "|" ++ t) : a = b ∧ s = t := by
  have hdata : a.data ++ '|' :: s.data = b.data ++ '|' :: t.data := by
    have hd := congrArg String.data h
    have hp : (("|" : String)).data = ['|'] := rfl
    have h1 : (a ++ "|" ++ s).data = a.data ++ '|' :: s.data := by
      show a.data ++ ("|" : String).data ++ s.data = _
      rw [hp, List.append_assoc]
      rfl
    have h2 : (b ++ "|" ++ t).data = b.data ++ '|' :: t.data := by
      show b.data ++ ("|" : String).data ++ t.data = _
      rw [hp, List.append_assoc]
      rfl
    rw [h1, h2] at hd
    exact hd
  obtain ⟨h1, h2⟩ := pipe_split_lists a.data b.data s.data t.data
    (pipeFree_chars a ha) (pipeFree_chars b hb) hdata
  exact ⟨String.ext h1, String.ext h2⟩

theorem countP_take_of_perm {α β : Type} [DecidableEq β] (f : α → β)
    (l l' : List α) (n : Nat) (hperm : l'.Perm l) (hnd : (l.map f).Nodup) :
    l.countP (fun e => decide (f e ∈ (l'.take n).map f)) = min n l.length := by
  have hnd' : (l'.map f).Nodup := ((hperm.map f).nodup_iff).mpr hnd
  have key : ∀ K : List β, K = (l'.take n).map f →
      l'.countP (fun e => decide (f e ∈ K)) = min n l'.length := by
    intro K hK
    conv_lhs => rw [← List.take_append_drop n l']
    rw [List.countP_append]
    have h1 : (l'.take n).countP (fun e => decide (f e ∈ K))
        = (l'.take n).length := by
      rw [List.countP_eq_length]
      intro a ha
      simp only [decide_eq_true_eq, hK]
      exact List.mem_map_of_mem f ha
    have h2 : (l'.drop n).countP (fun e => decide (f e ∈ K)) = 0 := by
      rw [List.countP_eq_zero]
      intro a ha
      simp only [decide_eq_true_eq, hK]
      intro hmem
      have hsplit : l'.map f = (l'.take n).map f ++ (l'.drop n).map f := by
        rw [← List.map_append, List.take_append_drop]
      rw [hsplit] at hnd'
      exact (List.nodup_append.mp hnd').2.2 hmem (List.mem_map_of_mem f ha)
    rw [h1, h2, List.length_take, Nat.add_zero]
  rw [← hperm.countP_eq, key ((l'.take n).map f) rfl, hperm.length_eq]

theorem configGet_mem_keys (configs : List (String × BankConfig)) (b : String)
    (c : BankConfig) (h : configGet configs b = some c) :
    b ∈ configs.map Prod.fst := by
  induction configs with
  | nil => simp [configGet] at h
  | cons p t ih =>
      obtain ⟨k₀, c₀⟩ := p
      by_cases hk : k₀ = b
      · simp [hk]
      · simp only [configGet, if_neg hk] at h
        simp [ih h]

theorem mem_activeBanks_iff (configs : List (String × BankConfig)) (b : String) :
    b ∈ activeBanks configs
      ↔ b ∈ configs.map Prod.fst
          ∧ ∃ c, configGet configs b = some c ∧ c.enabled = true := by
  unfold activeBanks
  rw [List.mem_filter]
  constructor
  · rintro ⟨h1, h2⟩
    refine ⟨h1, ?_⟩
    cases hg : configGet configs b with
    | none =>
        rw [hg] at h2
        simp at h2
    | some c =>
        rw [hg] at h2
        exact ⟨c, rfl, h2⟩
  · rintro ⟨h1, c, hg, he⟩
    refine ⟨h1, ?_⟩
    rw [hg]
    exact he

theorem selForBank_shape (configs : List (String × BankConfig))
    (clean : List CashbackEntry) (bank s : String)
    (h : s ∈ selForBank configs clean bank) :
    ∃ e : CashbackEntry,
      e.bankName = bank ∧ s = bank ++ "|" ++ jsStrToLower e.category := by
  unfold selForBank at h
  simp only [List.mem_map] at h
  obtain ⟨e, he, hs⟩ := h
  have he1 : e ∈ sortByPctDesc (clean.filter fun d => d.bankName == bank) :=
    List.mem_of_mem_take he
  have he2 : e ∈ clean.filter (fun d => d.bankName == bank) :=
    ((sortByPctDesc_perm _).mem_iff).mp he1
  have hb : e.bankName = bank := by
    have := (List.mem_filter.mp he2).2
    simpa using this
  exact ⟨e, hb, hs.symm⟩

theorem selForBank_eq_map_entryKey (configs : List (String × BankConfig))
    (clean : List CashbackEntry) (bank : String) :
    selForBank configs clean bank
      = ((sortByPctDesc (clean.filter fun d => d.bankName == bank)).take
          (effLimit configs bank)).map entryKey := by
  unfold selForBank
  apply List.map_congr_left
  intro e he
  have he1 : e ∈ sortByPctDesc (clean.filter fun d => d.bankName == bank) :=
    List.mem_of_mem_take he
  have he2 : e ∈ clean.filter (fun d => d.bankName == bank) :=
    ((sortByPctDesc_perm _).mem_iff).mp he1
  have hb : e.bankName = bank := by
    have := (List.mem_filter.mp he2).2
    simpa using this
  unfold entryKey
  rw [hb]

theorem mem_bankSelections_iff (configs : List (String × BankConfig))
    (clean : List CashbackEntry) (s : String) :
    s ∈ bankSelections configs clean
      ↔ ∃ b ∈ activeBanks configs, s ∈ selForBank configs clean b := by
  unfold bankSelections
  simp [List.mem_flatten, List.mem_map]

theorem selection_mem_iff (configs : List (String × BankConfig))
    (clean : List CashbackEntry) (bank : String) (e : CashbackEntry)
    (hkeys : ∀ b ∈ configs.map Prod.fst, pipeFree b = true)
    (hbank : bank ∈ activeBanks configs)
    (hb : e.bankName = bank) :
    entryKey e ∈ bankSelections configs clean
      ↔ entryKey e ∈ selForBank configs clean bank := by
  constructor
  · intro h
    obtain ⟨b', hb', hsel⟩ := (mem_bankSelections_iff configs clean _).mp h
    obtain ⟨e', hbname', hshape⟩ := selForBank_shape configs clean b' _ hsel
    have hpfbank : pipeFree bank = true :=
      hkeys bank ((mem_activeBanks_iff configs bank).mp hbank).1
    have hpfb : pipeFree b' = true :=
      hkeys b' ((mem_activeBanks_iff configs b').mp hb').1
    have heq : bank ++ "|" ++ jsStrToLower e.category
        = b' ++ "|" ++ jsStrToLower e'.category := by
      rw [← hshape]
      unfold entryKey
      rw [hb]
    obtain ⟨hbb, -⟩ := pipe_key_cancel bank b' _ _ hpfbank hpfb heq
    rw [hbb]
    exact hsel
  · intro h
    exact (mem_bankSelections_iff configs clean _).mpr ⟨bank, hbank, h⟩

/-- C3 (amended): for every enabled bank, the number of its deduplicated
entries carrying the selection flag equals
`min (effective limit) (number of deduplicated entries of that bank)`,
where the effective limit is the configured limit unless that limit is 0,
in which case the code's `|| 5` fallback substitutes 5; the count is
bounded by the effective limit, and the bank's deduplicated entries have
pairwise-distinct lower-cased categories, so this is also the number of
distinct categories the bank offers. -/
theorem selection_count_eq_min (configs : List (String × BankConfig))
    (data : List CashbackEntry) (bank : String) (c : BankConfig)
    (hkeys : ∀ b ∈ configs.map Prod.fst, pipeFree b = true)
    (hc : configGet configs bank = some c)
    (he : c.enabled = true) :
    selectedCount configs data bank
        = min (effLimit configs bank)
            (((cleanData data).filter fun e => e.bankName == bank).length)
      ∧ selectedCount configs data bank ≤ effLimit configs bank
      ∧ (((cleanData data).filter fun e => e.bankName == bank).map
          fun e => jsStrToLower e.category).Nodup := by
  have hbank : bank ∈ activeBanks configs :=
    (mem_activeBanks_iff configs bank).mpr
      ⟨configGet_mem_keys configs bank c hc, c, hc, he⟩
  have hLnd : ((((cleanData data).filter fun e => e.bankName == bank).map
      entryKey)).Nodup :=
    List.Nodup.sublist
      (List.Sublist.map entryKey (List.filter_sublist (cleanData data)))
      (cleanData_keys_nodup data)
  have hcount : selectedCount configs data bank
      = ((cleanData data).filter fun e => e.bankName == bank).countP
          (fun e => (bankSelections configs (cleanData data)).contains (entryKey e)) := by
    unfold selectedCount
    rw [List.countP_eq_length_filter, List.filter_filter]
    congr 1
    apply List.filter_congr
    intro x hx
    rw [Bool.and_comm]
  have hpoint : ∀ e ∈ (cleanData data).filter (fun e => e.bankName == bank),
      ((bankSelections configs (cleanData data)).contains (entryKey e))
        = decide (entryKey e
            ∈ ((sortByPctDesc ((cleanData data).filter fun d => d.bankName == bank)).take
                (effLimit configs bank)).map entryKey) := by
    intro e heL
    have hb : e.bankName = bank := by
      simpa using (List.mem_filter.mp heL).2
    have hiff := selection_mem_iff configs (cleanData data) bank e hkeys hbank hb
    rw [selForBank_eq_map_entryKey] at hiff
    rw [contains_eq_decide_mem]
    exact decide_eq_decide.mpr hiff
  have hmin := countP_take_of_perm entryKey
    ((cleanData data).filter fun e => e.bankName == bank)
    (sortByPctDesc ((cleanData data).filter fun e => e.bankName == bank))
    (effLimit configs bank)
    (sortByPctDesc_perm _) hLnd
  have hfinal : selectedCount configs data bank
      = min (effLimit configs bank)
          (((cleanData data).filter fun e => e.bankName == bank).length) := by
    rw [hcount, List.countP_congr (fun x hx => by rw [hpoint x hx])]
    exact hmin
  refine ⟨hfinal, ?_, ?_⟩
  · rw [hfinal]
    exact Nat.min_le_left _ _
  · have hmapeq : (((cleanData data).filter fun e => e.bankName == bank).map entryKey)
        = ((((cleanData data).filter fun e => e.bankName == bank).map
            fun e => jsStrToLower e.category).map fun s => bank ++ "|" ++ s) := by
      rw [List.map_map]
      apply List.map_congr_left
      intro e heL
      have hb : e.bankName = bank := by
        simpa using (List.mem_filter.mp heL).2
      show entryKey e = bank ++ "|" ++ jsStrToLower e.category
      unfold entryKey
      rw [hb]
    exact List.Nodup.of_map _ (hmapeq ▸ hLnd)

/-- Witness: with Sber enabled at limit 2 and three distinct Sber
categories, exactly two entries are selected. -/
theorem selection_count_eq_min_witness :
    ((∀ b ∈ cfgC3w.map Prod.fst, pipeFree b = true)
        ∧ configGet cfgC3w "Sber" = some ⟨true, 2, "green"⟩
        ∧ (⟨true, 2, "green"⟩ : BankConfig).enabled = true)
      ∧ (selectedCount cfgC3w dataC3w "Sber"
            = min (effLimit cfgC3w "Sber")
                (((cleanData dataC3w).filter fun e => e.bankName == "Sber").length)
          ∧ selectedCount cfgC3w dataC3w "Sber" ≤ effLimit cfgC3w "Sber"
          ∧ (((cleanData dataC3w).filter fun e => e.bankName == "Sber").map
              fun e => jsStrToLower e.category).Nodup) :=
  ⟨⟨by decide, by decide, rfl⟩,
    selection_count_eq_min cfgC3w dataC3w "Sber" ⟨true, 2, "green"⟩
      (by decide) (by decide) rfl⟩

/-- C3 counterexample: with Sber enabled at configured limit 0 and one
Sber offer, one entry is selected — more than the configured limit 0,
because the code's `|| 5` fallback turns the limit 0 into 5. -/
theorem selection_count_limit_zero_cex :
    configGet cfgC3 "Sber" = some ⟨true, 0, "green"⟩
      ∧ selectedCount cfgC3 dataC3 "Sber" = 1
      ∧ ¬ selectedCount cfgC3 dataC3 "Sber" ≤ 0 := by
  refine ⟨by decide, by decide, by decide⟩

/-! ### Winner machinery -/

theorem foldl_max_init_le (ys : List Int) (b : Int) : b ≤ ys.foldl max b := by
  induction ys generalizing b with
  | nil => simp
  | cons y ys ih =>
      rw [List.foldl_cons]
      exact le_trans (le_max_left b y) (ih (max b y))

theorem mem_le_foldl_max (ys : List Int) (b p : Int) (h : p = b ∨ p ∈ ys) :
    p ≤ ys.foldl max b := by
  induction ys generalizing b with
  | nil =>
      rcases h with h | h
      · simp [h]
      · simp at h
  | cons y ys ih =>
      rw [List.foldl_cons]
      rcases h with h | h
      · subst h
        exact le_trans (le_max_left p y) (foldl_max_init_le ys (max p y))
      · rcases List.mem_cons.mp h with h | h
        · subst h
          exact le_trans (le_max_right b p) (foldl_max_init_le ys (max b p))
        · exact ih (max b y) (Or.inr h)

/-- C5: for every row of the built matrix, if no cell is selected the
winner set is empty; every winner cell is selected and carries exactly
the row's maximal selected percentage; that maximum bounds the percentage
of every selected cell that has one; and no unselected cell is a winner. -/
theorem winner_invariant (configs : List (String × BankConfig))
    (data : List CashbackEntry) (row : MatrixRow)
    (_hrow : row ∈ buildMatrix configs data) :
    ((∀ cell ∈ row.values, cell.isSelected = false) → rowWinners row = [])
      ∧ (∀ cell ∈ rowWinners row,
          cell.isSelected = true ∧ cell.percentage = some (rowMaxActive row.values))
      ∧ (∀ cell ∈ row.values, cell.isSelected = true →
          ∀ p : Int, cell.percentage = some p → p ≤ rowMaxActive row.values)
      ∧ (∀ cell ∈ row.values, cell.isSelected = false → cell ∉ rowWinners row) := by
  refine ⟨?_, ?_, ?_, ?_⟩
  · intro hall
    unfold rowWinners
    rw [List.filter_eq_nil_iff]
    intro cell hc
    simp [hall cell hc]
  · intro cell hc
    unfold rowWinners at hc
    have := List.mem_filter.mp hc
    obtain ⟨-, hpred⟩ := this
    rw [Bool.and_eq_true] at hpred
    obtain ⟨hsel, hbeq⟩ := hpred
    refine ⟨hsel, ?_⟩
    simpa using hbeq
  · intro cell hc hsel p hp
    have hmem : p ∈ (row.values.filter fun v =>
        v.isSelected && v.percentage.isSome).filterMap Cell.percentage := by
      apply List.mem_filterMap.mpr
      refine ⟨cell, ?_, hp⟩
      apply List.mem_filter.mpr
      refine ⟨hc, ?_⟩
      simp [hsel, hp]
    unfold rowMaxActive
    cases hl : (row.values.filter fun v =>
        v.isSelected && v.percentage.isSome).filterMap Cell.percentage with
    | nil =>
        rw [hl] at hmem
        simp at hmem
    | cons x xs =>
        rw [hl] at hmem
        exact mem_le_foldl_max xs x p (List.mem_cons.mp hmem)
  · intro cell hc hsel hwin
    unfold rowWinners at hwin
    have := (List.mem_filter.mp hwin).2
    rw [Bool.and_eq_true] at this
    rw [hsel] at this
    exact Bool.false_ne_true this.1

/-- Witness: the winner invariant instantiated at the one-row matrix of a
single selected Sber offer. -/
theorem winner_invariant_witness :
    (rowC5 ∈ buildMatrix cfgC5 dataC5)
      ∧ (((∀ cell ∈ rowC5.values, cell.isSelected = false) → rowWinners rowC5 = [])
          ∧ (∀ cell ∈ rowWinners rowC5,
              cell.isSelected = true ∧ cell.percentage = some (rowMaxActive rowC5.values))
          ∧ (∀ cell ∈ rowC5.values, cell.isSelected = true →
              ∀ p : Int, cell.percentage = some p → p ≤ rowMaxActive rowC5.values)
          ∧ (∀ cell ∈ rowC5.values, cell.isSelected = false → cell ∉ rowWinners rowC5)) :=
  ⟨by decide, winner_invariant cfgC5 dataC5 rowC5 (by decide)⟩

/-- C1: with Sber enabled at configured limit 0 and a single Sber offer,
the code still selects that offer — `bankConfigs[bank]?.limit || 5`
replaces the falsy limit 0 by 5, so the matrix carries one selected cell
where the claim requires zero. -/
theorem limit_zero_selects_one :
    configGet cfgC1 "Sber" = some ⟨true, 0, "green"⟩
      ∧ bankSelections cfgC1 (cleanData dataC1) = ["Sber|такси"]
      ∧ ∃ row ∈ buildMatrix cfgC1 dataC1, ∃ cell ∈ row.values,
          cell.isSelected = true :=
  ⟨by decide, by decide, by decide⟩

/-- C4 counterexample: the bank name "Foobar" matches no alias, yet the
normalizer returns it unchanged instead of "Other"; the result lies
outside the claimed closed set of canonical tags. -/
theorem normalizeBank_unmatched_cex :
    normalizeBank "Foobar" = "Foobar"
      ∧ normalizeBank "Foobar" ≠ "Other"
      ∧ normalizeBank "Foobar"
          ∉ (["Sber", "T-Bank", "Alfa", "VTB", "Yandex", "Other"] : List String) :=
  ⟨by decide, by decide, by decide⟩

/-- C4 (amended): the normalizer returns the bank name unchanged when no
alias matches — an unmatched name passes through as-is, it is not mapped
to "Other" — and otherwise returns one of the five alias targets. -/
theorem normalizeBank_closed_or_id (b : String) :
    normalizeBank b = b
      ∨ normalizeBank b ∈ (["T-Bank", "Sber", "Alfa", "VTB", "Yandex"] : List String) := by
  have hstep : ∀ (cnd : Bool) (lit x : String),
      (x = b ∨ x ∈ (["T-Bank", "Sber", "Alfa", "VTB", "Yandex"] : List String)) →
      lit ∈ (["T-Bank", "Sber", "Alfa", "VTB", "Yandex"] : List String) →
      ((if cnd then lit else x) = b
        ∨ (if cnd then lit else x)
            ∈ (["T-Bank", "Sber", "Alfa", "VTB", "Yandex"] : List String)) := by
    intro cnd lit x hx hlit
    cases cnd
    · simpa using hx
    · simpa using Or.inr hlit
  simp only [normalizeBank]
  refine hstep _ _ _ ?_ (by decide)
  refine hstep _ _ _ ?_ (by decide)
  refine hstep _ _ _ ?_ (by decide)
  refine hstep _ _ _ ?_ (by decide)
  refine hstep _ _ _ ?_ (by decide)
  exact Or.inl rfl

/-! ### Matrix machinery -/

theorem mem_insStr (a s : String) (l : List String) (h : a ∈ insStr s l) :
    a = s ∨ a ∈ l := by
  induction l with
  | nil =>
      simp only [insStr, List.mem_singleton] at h
      exact Or.inl h
  | cons x xs ih =>
      rw [insStr] at h
      by_cases hc : strLtB x s = true
      · rw [if_pos hc] at h
        rcases List.mem_cons.mp h with h | h
        · exact Or.inr (by simp [h])
        · rcases ih h with h | h
          · exact Or.inl h
          · exact Or.inr (by simp [h])
      · rw [if_neg hc] at h
        rcases List.mem_cons.mp h with h | h
        · exact Or.inl h
        · exact Or.inr h

theorem mem_sortStrings (a : String) (l : List String) (h : a ∈ sortStrings l) :
    a ∈ l := by
  induction l with
  | nil =>
      rw [sortStrings] at h
      simp at h
  | cons x xs ih =>
      rw [sortStrings, List.foldr_cons] at h
      rcases mem_insStr a x _ h with h | h
      · simp [h]
      · have : a ∈ xs := ih (by rw [sortStrings]; exact h)
        simp [this]

theorem mem_dedupAux (a : String) (seen l : List String)
    (h : a ∈ dedupAux seen l) : a ∈ l := by
  induction l generalizing seen with
  | nil =>
      simp only [dedupAux] at h
      exact absurd h (List.not_mem_nil a)
  | cons x xs ih =>
      simp only [dedupAux] at h
      by_cases hc : x ∈ seen
      · rw [if_pos hc] at h
        simp [ih seen h]
      · rw [if_neg hc] at h
        rcases List.mem_cons.mp h with h | h
        · simp [h]
        · simp [ih (x :: seen) h]

theorem buildMatrix_row_shape (configs : List (String × BankConfig))
    (data : List CashbackEntry) (row : MatrixRow)
    (hrow : row ∈ buildMatrix configs data) :
    row.name ∈ ((cleanData data).filter fun d =>
        (activeBanks configs).contains d.bankName).map CashbackEntry.category
      ∧ row.values = (activeBanks configs).map fun bank =>
          { bank := bank
            percentage := mapGet (matrixMap (cleanData data)) (bank ++ "|" ++ row.name)
            isSelected := (bankSelections configs (cleanData data)).contains
              (bank ++ "|" ++ jsStrToLower row.name) } := by
  simp only [buildMatrix, List.mem_map] at hrow
  obtain ⟨cat, hcat, hroweq⟩ := hrow
  subst hroweq
  exact ⟨mem_dedupAux _ _ _ (mem_sortStrings _ _ hcat), rfl⟩

/-- C9: a disabled bank is excluded everywhere — it is not an active
column, no matrix cell names it, every matrix row's category comes from a
deduplicated entry whose bank is enabled, and every selection key is
produced by an enabled bank. -/
theorem disabled_bank_excluded (configs : List (String × BankConfig))
    (data : List CashbackEntry) (bank : String) (c : BankConfig)
    (hc : configGet configs bank = some c) (hdis : c.enabled = false) :
    bank ∉ activeBanks configs
      ∧ (∀ row ∈ buildMatrix configs data, ∀ cell ∈ row.values, cell.bank ≠ bank)
      ∧ (∀ row ∈ buildMatrix configs data,
          ∃ e ∈ cleanData data, e.bankName ∈ activeBanks configs
            ∧ e.category = row.name)
      ∧ (∀ s ∈ bankSelections configs (cleanData data),
          ∃ b ∈ activeBanks configs, ∃ rest : String, s = b ++ "|" ++ rest) := by
  have hnot : bank ∉ activeBanks configs := by
    intro hmem
    obtain ⟨-, c', hg, he⟩ := (mem_activeBanks_iff configs bank).mp hmem
    rw [hc] at hg
    injection hg with hcc
    rw [← hcc, hdis] at he
    exact Bool.false_ne_true he
  refine ⟨hnot, ?_, ?_, ?_⟩
  · intro row hrow cell hcell
    have hshape := (buildMatrix_row_shape configs data row hrow).2
    rw [hshape] at hcell
    simp only [List.mem_map] at hcell
    obtain ⟨b, hb, hbc⟩ := hcell
    intro hbad
    rw [← hbc] at hbad
    have hbb : b = bank := hbad
    rw [hbb] at hb
    exact hnot hb
  · intro row hrow
    have hshape := (buildMatrix_row_shape configs data row hrow).1
    simp only [List.mem_map, List.mem_filter] at hshape
    obtain ⟨e, ⟨hecl, hcont⟩, hcat⟩ := hshape
    exact ⟨e, hecl, List.mem_of_elem_eq_true hcont, hcat⟩
  · intro s hs
    obtain ⟨b, hb, hsel⟩ := (mem_bankSelections_iff configs (cleanData data) s).mp hs
    obtain ⟨e, -, hshape⟩ := selForBank_shape configs (cleanData data) b s hsel
    exact ⟨b, hb, jsStrToLower e.category, hshape⟩

/-- Witness: the disabled-bank exclusion instantiated at a configuration
with VTB disabled and an offer that normalizes into VTB. -/
theorem disabled_bank_excluded_witness :
    configGet cfgC9 "VTB" = some ⟨false, 4, "blue"⟩
      ∧ ("VTB" ∉ activeBanks cfgC9
        ∧ (∀ row ∈ buildMatrix cfgC9 dataC9, ∀ cell ∈ row.values, cell.bank ≠ "VTB")
        ∧ (∀ row ∈ buildMatrix cfgC9 dataC9,
            ∃ e ∈ cleanData dataC9, e.bankName ∈ activeBanks cfgC9
              ∧ e.category = row.name)
        ∧ (∀ s ∈ bankSelections cfgC9 (cleanData dataC9),
            ∃ b ∈ activeBanks cfgC9, ∃ rest : String, s = b ++ "|" ++ rest)) :=
  ⟨by decide,
    disabled_bank_excluded cfgC9 dataC9 "VTB" ⟨false, 4, "blue"⟩ (by decide) rfl⟩

/-- C10: on two enabled banks offering the same category text in
different letter casing, the built matrix contains a cell that carries the
selection flag but holds no percentage — the selection is looked up by the
lower-cased key while the percentage is looked up by the exact
original-case display, so Sber's selection attaches to the row "Такси"
where Sber has no offer. -/
theorem selected_cell_without_offer :
    ∃ row ∈ buildMatrix cfgC10 dataC10, ∃ cell ∈ row.values,
      cell.isSelected = true ∧ cell.percentage = none := by decide

/-- C6 counterexample: the worked example does not produce a single taxi
row — the two casings "Такси" and "такси" form two distinct rows, and the
row "Такси" has winner T-Bank at 6 %, not Sber at 7 %. -/
theorem example_taxi_two_rows_cex :
    (buildMatrix cfgC6 dataC6).map MatrixRow.name = ["Такси", "такси"]
      ∧ (buildMatrix cfgC6 dataC6).length ≠ 1
      ∧ (∃ row ∈ buildMatrix cfgC6 dataC6,
          rowWinners row = [⟨"T-Bank", some 6, true⟩]) :=
  ⟨by decide, by decide, by decide⟩

/-- C6 (amended): on the worked example the pipeline dedupes to
(Sber, "такси", 7) and (T-Bank, "Такси", 6), marks both selected, and
builds two taxi rows — "Такси" whose winner is T-Bank at 6 % and "такси"
whose winner is Sber at 7 % — instead of a single merged row. -/
theorem example_taxi_full_eval :
    cleanData dataC6
        = [⟨"2", "Sber", "такси", 7, none⟩, ⟨"3", "T-Bank", "Такси", 6, none⟩]
      ∧ bankSelections cfgC6 (cleanData dataC6) = ["Sber|такси", "T-Bank|такси"]
      ∧ buildMatrix cfgC6 dataC6
          = [⟨"Такси", [⟨"Sber", none, true⟩, ⟨"T-Bank", some 6, true⟩]⟩,
             ⟨"такси", [⟨"Sber", some 7, true⟩, ⟨"T-Bank", none, true⟩]⟩]
      ∧ (buildMatrix cfgC6 dataC6).map rowWinners
          = [[⟨"T-Bank", some 6, true⟩], [⟨"Sber", some 7, true⟩]] :=
  ⟨by decide, by decide, by decide, by decide⟩

/-- C7 counterexample: with a single Sber offer of 0 %, the offer is
present in the matrix, yet the tabular export renders its cell as the
empty string rather than "0%" — `` v.percentage ? `${v.percentage}%` : '' ``
treats the falsy number 0 like an absent value. -/
theorem copyText_zero_pct_cex :
    ((buildMatrix cfgC7 dataC7).map fun r => r.values.map Cell.percentage)
        = [[some 0]]
      ∧ copyText cfgC7 dataC7 = "Категория\tSber\nКафе\t"
      ∧ copyText cfgC7 dataC7 ≠ "Категория\tSber\nКафе\t0%" :=
  ⟨by decide, by decide, by decide⟩

/-- C7 (amended): the tabular export is exactly the tab-separated header
(the category label followed by the enabled banks) and one line per matrix
row, each cell rendered as `<percentage>%` when an offer with a nonzero
percentage is present and as the empty string when the cell is absent or
its percentage is 0. -/
theorem copyText_eq_spec (configs : List (String × BankConfig))
    (data : List CashbackEntry) :
    copyText configs data = specTabular configs data
      ∧ specCellText none = ""
      ∧ specCellText (some 0) = ""
      ∧ ∀ q : Int, q ≠ 0 → specCellText (some q) = toString q ++ "%" := by
  refine ⟨rfl, rfl, rfl, ?_⟩
  intro q hq
  simp [specCellText, hq]

/-- C8: the cheat-sheet body emits exactly one line per matrix row whose
winner set is non-empty — naming the category and each winner bank with
its percentage, multiple winners joined by " или " — and no line for a row
with an empty winner set; on the two-bank 5 % tie both banks share the
category's single line. -/
theorem cheat_lines_winners :
    (∀ matrix : List MatrixRow,
        cheatBody matrix
          = (matrix.filter fun row => !(rowWinners row).isEmpty).map fun row =>
              "✅ " ++ row.name ++ ": " ++ winnerText (rowWinners row))
      ∧ cheatBody (buildMatrix cfgC8 dataC8)
          = ["✅ Кафе: Sber (5%) или Alfa (5%)"] := by
  constructor
  · intro matrix
    have aux : ∀ (m : List MatrixRow) (acc : List String),
        m.foldl
          (fun lines row =>
            if (rowWinners row).length > 0 then
              lines ++ ["✅ " ++ row.name ++ ": " ++ winnerText (rowWinners row)]
            else lines)
          acc
          = acc ++ (m.filter fun row => !(rowWinners row).isEmpty).map
              (fun row => "✅ " ++ row.name ++ ": " ++ winnerText (rowWinners row)) := by
      intro m
      induction m with
      | nil =>
          intro acc
          simp
      | cons r t ih =>
          intro acc
          rw [List.foldl_cons]
          by_cases h : (rowWinners r).length > 0
          · have hne : (!(rowWinners r).isEmpty) = true := by
              cases hw : rowWinners r with
              | nil =>
                  rw [hw] at h
                  simp at h
              | cons a b => simp
            rw [if_pos h, ih]
            simp [List.filter_cons, hne, List.append_assoc]
          · have hemp : (!(rowWinners r).isEmpty) = false := by
              cases hw : rowWinners r with
              | nil => simp
              | cons a b =>
                  rw [hw] at h
                  simp at h
            rw [if_neg h, ih]
            simp [List.filter_cons, hemp]
    rw [cheatBody, aux matrix []]
    rw [List.nil_append]
  · decide

/-- Witness: the tabular-export refinement instantiated at the
zero-percentage input, and the nonzero rendering rule discharged at 7. -/
theorem copyText_eq_spec_witness :
    copyText cfgC7 dataC7 = specTabular cfgC7 dataC7
      ∧ ((7 : Int) ≠ 0 ∧ specCellText (some 7) = "7%") :=
  ⟨(copyText_eq_spec cfgC7 dataC7).1,
    by decide, (copyText_eq_spec cfgC7 dataC7).2.2.2 7 (by decide)⟩
